import Mathlib

/-!
Shallow embedding of `hashfs.go` (package hashfs): an `fs.FS` adapter that
appends sha256 digests to file names and resolves digest-embedded names
back to plain names, maintaining two caches (`hash : plain → digest` and
`base : hashed → plain`) behind one reader/writer lock.

Modelling conventions:
* Go strings are modelled as `List Char` (`Str`).  Every character the code
  inspects (`'.'`, `'/'`) is a single byte in UTF-8, so the byte slicing in
  the Go code coincides with character slicing here.  `filepath.Ext` is
  modelled with the Unix path separator `'/'`.
* The backing store (`f.fs` with `fs.ReadFile`) is a fixed partial map from
  paths to byte contents; `none` models any read error.  Because
  `fs.ValidPath "" = false`, a conforming backing `fs.FS` never serves the
  empty name (`Env.store_empty`).
* `sha256.Sum256` is kept opaque: an arbitrary digest function producing 32
  bytes (`Env.sha`, `Env.sha_len`), matching the spec, which treats the
  digest algorithm as an external pure function.  `hex.EncodeToString` is
  implemented faithfully (`hexEncode`).
* The code is sequential here (the mutex serialises the cache accesses);
  each operation additionally returns the list of paths it passed to
  `fs.ReadFile` (the `reads` field) so that "performs no backing-store
  read" is expressible.  The final `f.fs.Open(base)` serving call is
  modelled by `fsOpen` and is not a `ReadFile` call.
-/

set_option maxRecDepth 10000

namespace Hashfs

abbrev Byte := Fin 256

abbrev Bytes := List Byte

abbrev Str := List Char

/-- Lowercase hexadecimal digit as produced by `encoding/hex`
(codepoint 48 is `0`, 87 + 10 = 97 is `a`). -/
def hexDigit (n : Nat) : Char :=
  if n < 10 then Char.ofNat (48 + n) else Char.ofNat (87 + n)

/-- `hex.EncodeToString`: each byte becomes its high nibble then its low nibble. -/
def hexEncode (b : Bytes) : Str :=
  b.foldr (fun x acc => hexDigit (x.val / 16) :: hexDigit (x.val % 16) :: acc) []

/-- Core of `filepath.Ext`, working on the reversed character list: scan
backwards from the end of the path, stopping at a path separator; keep
everything up to and including the first dot found. -/
def extRevList : List Char → List Char
  | [] => []
  | c :: cs =>
    if c = '/' then []
    else if c = '.' then [c]
    else if extRevList cs = [] then [] else c :: extRevList cs

/-- `filepath.Ext` (Unix separator): the suffix beginning at the final dot
in the final path element; empty if there is none. -/
def Ext (s : Str) : Str := (extRevList s.reverse).reverse

/-- Go slicing `s[:len(s)-n]` for a suffix length `n`. -/
def dropSuffix (s : Str) (n : Nat) : Str := s.take (s.length - n)

/-- The environment: the wrapped read-only backing store and the digest
algorithm, both external collaborators of the component. -/
structure Env where
  store : Str → Option Bytes
  sha : Bytes → Bytes
  sha_len : ∀ b, (sha b).length = 32
  store_empty : store [] = none

/-- The two cache maps of `FS` (`hash` and `base`). -/
structure State where
  hash : Str → Option Str
  base : Str → Option Str

/-- `New`: both maps start empty. -/
def State.init : State := ⟨fun _ => none, fun _ => none⟩

/-- Go map assignment `m[k] = v`. -/
def mapInsert (m : Str → Option Str) (k v : Str) : Str → Option Str :=
  fun x => if x = k then some v else m x

/-- `getHash`: synchronized lookup on the hash map. -/
def getHash (f : State) (name : Str) : Option Str := f.hash name

/-- `getBase`: synchronized lookup on the base map. -/
def getBase (f : State) (name : Str) : Option Str := f.base name

/-- `makeHash`: read the full file and hex-encode its sha256 digest; any
read error yields the empty string. -/
def makeHash (env : Env) (name : Str) : Str :=
  match env.store name with
  | none => []
  | some b => hexEncode (env.sha b)

/-- The naming rule of `Hash` (line 41) and `Name` (line 74):
`name[:len(name)-len(ext)] + "." + hash + ext` with `ext = filepath.Ext(name)`. -/
def hashedName0 (name hash : Str) : Str :=
  dropSuffix name (Ext name).length ++ ['.'] ++ hash ++ Ext name

/-- Result of `Hash`/`Name`: the returned string, the cache state after the
call, and the paths read from the backing store during the call. -/
structure HRes where
  val : Str
  st : State
  reads : List Str

/-- `Hash`: return the cached digest if present, else compute it, record
both directions of the mapping (lines 42-45) and return it; empty on read
failure, caching nothing. -/
def Hash (env : Env) (f : State) (name : Str) : HRes :=
  match getHash f name with
  | some h => ⟨h, f, []⟩
  | none =>
    if makeHash env name = [] then ⟨[], f, [name]⟩
    else ⟨makeHash env name,
          ⟨mapInsert f.hash name (makeHash env name),
           mapInsert f.base (hashedName0 name (makeHash env name)) name⟩,
          [name]⟩

/-- `Name`: the hashed file name for the given file, empty when `Hash` is
empty. -/
def Name (env : Env) (f : State) (name : Str) : HRes :=
  if (Hash env f name).val = [] then ⟨[], (Hash env f name).st, (Hash env f name).reads⟩
  else ⟨hashedName0 name (Hash env f name).val, (Hash env f name).st, (Hash env f name).reads⟩

/-- `*fs.PathError`: its `Op` and `Path` fields (the wrapped error value is
always `fs.ErrNotExist` in this code). -/
structure PathErr where
  op : Str
  path : Str
deriving DecidableEq

/-- The literal "open". -/
def opOpen : Str := ['o', 'p', 'e', 'n']

/-- `f.fs.Open` for a conforming backing store: succeeds exactly on the
readable paths, serving the store's bytes; otherwise a not-exist error
carrying the plain path it was asked for. -/
def fsOpen (env : Env) (name : Str) : Except PathErr (Str × Bytes) :=
  match env.store name with
  | some b => Except.ok (name, b)
  | none => Except.error ⟨opOpen, name⟩

/-- Result of `Open`: the opened file (its plain path and bytes) or the
error, the cache state after the call, and the `ReadFile` paths. -/
structure ORes where
  res : Except PathErr (Str × Bytes)
  st : State
  reads : List Str

/-- Lines 83-95 of `Open`: the value of `hashExt` after the branch (either
the sole extension itself, or the second-to-last extension). -/
def parsedHashExt (name : Str) : Str :=
  if Ext (dropSuffix name (Ext name).length) = [] then Ext name
  else Ext (dropSuffix name (Ext name).length)

/-- Lines 88-95 of `Open`: the candidate plain path `base`. -/
def parsedBase (name : Str) : Str :=
  if Ext (dropSuffix name (Ext name).length) = [] then dropSuffix name (Ext name).length
  else dropSuffix name ((Ext (dropSuffix name (Ext name).length)).length + (Ext name).length)
       ++ Ext name

/-- `hashExt[1:]`: the digest-slot text without its leading dot. -/
def parsedDigest (name : Str) : Str := (parsedHashExt name).drop 1

/-- `Open`: fast path through the base map, else parse the name, validate
the digest slot against a fresh `makeHash`, record both directions of the
mapping (lines 101-104) and open the plain path. -/
def Open (env : Env) (f : State) (name : Str) : ORes :=
  match getBase f name with
  | some base => ⟨fsOpen env base, f, []⟩
  | none =>
    if Ext name = [] then ⟨Except.error ⟨opOpen, name⟩, f, []⟩
    else if makeHash env (parsedBase name) = [] ∨ parsedDigest name ≠ makeHash env (parsedBase name)
    then ⟨Except.error ⟨opOpen, name⟩, f, [parsedBase name]⟩
    else ⟨fsOpen env (parsedBase name),
          ⟨mapInsert f.hash (parsedBase name) (makeHash env (parsedBase name)),
           mapInsert f.base name (parsedBase name)⟩,
          [parsedBase name]⟩

/-- One call of the exposed interface. -/
inductive Op where
  | hashOp (name : Str)
  | nameOp (name : Str)
  | openOp (name : Str)

/-- Cache state after one call. -/
def step (env : Env) (f : State) : Op → State
  | .hashOp n => (Hash env f n).st
  | .nameOp n => (Name env f n).st
  | .openOp n => (Open env f n).st

/-- Cache state after a sequence of calls. -/
def run (env : Env) (f : State) : List Op → State
  | [] => f
  | o :: os => run env (step env f o) os

/-- Lowercase hexadecimal character. -/
abbrev isHexC (c : Char) : Prop := ('0' ≤ c ∧ c ≤ '9') ∨ ('a' ≤ c ∧ c ≤ 'f')

/-- A well-formed digest token: exactly 64 lowercase hex characters. -/
def IsHex64 (d : Str) : Prop := d.length = 64 ∧ ∀ c ∈ d, isHexC c

/-- A token safe to embed in a hashed name: nonempty, no dot, no separator. -/
def ValidTok (d : Str) : Prop := d ≠ [] ∧ ∀ c ∈ d, c ≠ '.' ∧ c ≠ '/'

/-- The cache-coherence invariant of reachable states. -/
structure Inv (env : Env) (f : State) : Prop where
  inv1 : ∀ p d, f.hash p = some d → ∃ b, env.store p = some b ∧ d = hexEncode (env.sha b)
  inv2 : ∀ p d, f.hash p = some d → f.base (hashedName0 p d) = some p
  inv3 : ∀ k q, f.base k = some q → ∃ d, f.hash q = some d ∧ k = hashedName0 q d

/-- Path of the single file of the concrete test environment. -/
def aPath : Str := ['a']

/-- Concrete environment: one readable file `"a"` with empty content, and a
constant digest function. -/
def env0 : Env where
  store := fun p => if p = aPath then some [] else none
  sha := fun _ => List.replicate 32 0
  sha_len := fun _ => by simp
  store_empty := by decide

/-- Concrete environment in which every read fails. -/
def envN : Env where
  store := fun _ => none
  sha := fun _ => List.replicate 32 0
  sha_len := fun _ => by simp
  store_empty := rfl

/-- The digest token of the empty content under `env0`/`envN`. -/
def d0 : Str := hexEncode (List.replicate 32 0)

/-- State of `env0` after `Hash "a"`. -/
def s0 : State := (Hash env0 State.init aPath).st

/-- A hashed-looking request for `"a"` with a wrong digest slot (64 eights). -/
def name0 : Str := 'a' :: '.' :: List.replicate 64 '8'

/-- A hashed-looking request for `"a"` with a wrong digest slot (64 nines). -/
def name9 : Str := 'a' :: '.' :: List.replicate 64 '9'

/-- The request `"a.b"`. -/
def nameAB : Str := ['a', '.', 'b']

/-- The request `"a.b."`: its final extension is a bare trailing dot. -/
def nameBD : Str := ['a', '.', 'b', '.']

/-- The request `"x."`: exactly one dot-suffix, a bare trailing dot. -/
def nameDot : Str := ['x', '.']

example : Ext ['a', '.', 'e'] = ['.', 'e'] := by decide

example : Ext ['d', '.', 'r', '/', 'f'] = [] := by decide

example : Ext ['a', '.'] = ['.'] := by decide

example : parsedBase nameAB = ['a'] ∧ parsedDigest nameAB = ['b'] := by decide

example : (Hash env0 State.init aPath).val = d0 := by decide

/-- Taking the length of the left part of an append returns that part. -/
theorem take_len_append : ∀ (a b : Str), (a ++ b).take a.length = a
  | [], _ => rfl
  | c :: a, b => by simp [take_len_append a b]

/-- `dropSuffix` removes exactly an appended suffix. -/
theorem dropSuffix_append (a b : Str) : dropSuffix (a ++ b) b.length = a := by
  unfold dropSuffix
  rw [List.length_append, Nat.add_sub_cancel, take_len_append]

/-- Dropping the empty suffix is the identity. -/
theorem dropSuffix_zero (s : Str) : dropSuffix s 0 = s := by
  unfold dropSuffix
  rw [Nat.sub_zero, List.take_length]

/-- `extRevList` returns a prefix of its input. -/
theorem extRevList_pref : ∀ r : List Char, ∃ t, r = extRevList r ++ t
  | [] => ⟨[], rfl⟩
  | c :: cs => by
    by_cases h1 : c = '/'
    · exact ⟨c :: cs, by simp [extRevList, h1]⟩
    by_cases h2 : c = '.'
    · exact ⟨cs, by simp [extRevList, h1, h2]⟩
    by_cases h3 : extRevList cs = []
    · exact ⟨c :: cs, by simp [extRevList, h1, h2, h3]⟩
    · obtain ⟨t, ht⟩ := extRevList_pref cs
      exact ⟨t, by simp [extRevList, h1, h2, h3]; exact ht⟩

/-- `extRevList` output is empty or ends in the dot, with no dot and no
separator before it. -/
theorem extRevList_shape : ∀ r : List Char,
    extRevList r = [] ∨ ∃ m, extRevList r = m ++ ['.'] ∧ ∀ c ∈ m, c ≠ '.' ∧ c ≠ '/'
  | [] => Or.inl rfl
  | c :: cs => by
    by_cases h1 : c = '/'
    · exact Or.inl (by simp [extRevList, h1])
    by_cases h2 : c = '.'
    · exact Or.inr ⟨[], by simp [extRevList, h1, h2], by simp⟩
    by_cases h3 : extRevList cs = []
    · exact Or.inl (by simp [extRevList, h1, h2, h3])
    · rcases extRevList_shape cs with h | ⟨m, hm, hmem⟩
      · exact absurd h h3
      · refine Or.inr ⟨c :: m, ?_, ?_⟩
        · simp [extRevList, h1, h2, h3, hm]
        · intro x hx
          rcases List.mem_cons.mp hx with rfl | hx
          · exact ⟨h2, h1⟩
          · exact hmem x hx

/-- Computation of `extRevList` on a dotted suffix free of dots and
separators. -/
theorem extRevList_app : ∀ (l r : List Char), (∀ c ∈ l, c ≠ '.' ∧ c ≠ '/') →
    extRevList (l ++ '.' :: r) = l ++ ['.']
  | [], r, _ => by simp [extRevList]
  | c :: l, r, h => by
    have hc := h c (List.mem_cons_self c l)
    have hrec := extRevList_app l r (fun x hx => h x (List.mem_cons_of_mem c hx))
    have hne : extRevList (l ++ '.' :: r) ≠ [] := by
      rw [hrec]; simp
    simp [extRevList, hc.1, hc.2, hrec, hne]

/-- The extension is a suffix of the path. -/
theorem ext_suffix (s : Str) : dropSuffix s (Ext s).length ++ Ext s = s := by
  obtain ⟨t, ht⟩ := extRevList_pref s.reverse
  have hs : s = t.reverse ++ Ext s := by
    have h2 := congrArg List.reverse ht
    rw [List.reverse_reverse] at h2
    conv_lhs => rw [h2]
    rw [List.reverse_append]
    rfl
  have h1 : dropSuffix s (Ext s).length = t.reverse := by
    have h3 := dropSuffix_append t.reverse (Ext s)
    rw [← hs] at h3
    exact h3
  rw [h1, ← hs]

/-- A nonempty extension starts with the dot and has no further dot and no
separator. -/
theorem ext_shape (s : Str) :
    Ext s = [] ∨ ∃ m, Ext s = '.' :: m ∧ ∀ c ∈ m, c ≠ '.' ∧ c ≠ '/' := by
  rcases extRevList_shape s.reverse with h | ⟨m, hm, hmem⟩
  · exact Or.inl (by simp [Ext, h])
  · refine Or.inr ⟨m.reverse, ?_, ?_⟩
    · simp [Ext, hm]
    · intro c hc
      exact hmem c (List.mem_reverse.mp hc)

/-- Computation of `Ext` when the final dotted suffix has no dot and no
separator. -/
theorem ext_append (a d : Str) (hd : ∀ c ∈ d, c ≠ '.' ∧ c ≠ '/') :
    Ext (a ++ '.' :: d) = '.' :: d := by
  unfold Ext
  have h1 : (a ++ '.' :: d).reverse = d.reverse ++ '.' :: a.reverse := by
    simp [List.reverse_append]
  rw [h1, extRevList_app d.reverse a.reverse
      (fun c hc => hd c (List.mem_reverse.mp hc))]
  simp

/-- Parsing a name with exactly one dot-suffix: the sole suffix is treated
as the digest slot and the candidate plain path has no extension. -/
theorem parse_one_suffix (A m : Str) (hm : ∀ c ∈ m, c ≠ '.' ∧ c ≠ '/')
    (hA : Ext A = []) :
    Ext (A ++ '.' :: m) = '.' :: m ∧ parsedBase (A ++ '.' :: m) = A ∧
    parsedHashExt (A ++ '.' :: m) = '.' :: m := by
  have h1 : Ext (A ++ '.' :: m) = '.' :: m := ext_append A m hm
  have h2 : dropSuffix (A ++ '.' :: m) (Ext (A ++ '.' :: m)).length = A := by
    rw [h1]; exact dropSuffix_append A ('.' :: m)
  have h3 : Ext (dropSuffix (A ++ '.' :: m) (Ext (A ++ '.' :: m)).length) = [] := by
    rw [h2]; exact hA
  refine ⟨h1, ?_, ?_⟩
  · unfold parsedBase; rw [if_pos h3]; exact h2
  · unfold parsedHashExt; rw [if_pos h3]; exact h1

/-- Parsing a name with at least two dot-suffixes: the second-to-last
suffix is the digest slot and the last one is reattached to the stem. -/
theorem parse_two_suffix (A u m : Str) (hu : ∀ c ∈ u, c ≠ '.' ∧ c ≠ '/')
    (hm : ∀ c ∈ m, c ≠ '.' ∧ c ≠ '/') :
    Ext ((A ++ '.' :: u) ++ '.' :: m) = '.' :: m ∧
    parsedBase ((A ++ '.' :: u) ++ '.' :: m) = A ++ '.' :: m ∧
    parsedHashExt ((A ++ '.' :: u) ++ '.' :: m) = '.' :: u := by
  have h1 : Ext ((A ++ '.' :: u) ++ '.' :: m) = '.' :: m := ext_append (A ++ '.' :: u) m hm
  have h2 : dropSuffix ((A ++ '.' :: u) ++ '.' :: m)
      (Ext ((A ++ '.' :: u) ++ '.' :: m)).length = A ++ '.' :: u := by
    rw [h1]; exact dropSuffix_append (A ++ '.' :: u) ('.' :: m)
  have hcond : Ext (dropSuffix ((A ++ '.' :: u) ++ '.' :: m)
      (Ext ((A ++ '.' :: u) ++ '.' :: m)).length) = '.' :: u := by
    rw [h2]; exact ext_append A u hu
  have hcondne : Ext (dropSuffix ((A ++ '.' :: u) ++ '.' :: m)
      (Ext ((A ++ '.' :: u) ++ '.' :: m)).length) ≠ [] := by
    rw [hcond]; simp
  refine ⟨h1, ?_, ?_⟩
  · unfold parsedBase
    rw [if_neg hcondne, hcond, h1]
    have hlen : ('.' :: u).length + ('.' :: m).length = ('.' :: u ++ '.' :: m).length := by
      simp only [List.length_append, List.length_cons]
    rw [hlen]
    have hassoc : (A ++ '.' :: u) ++ '.' :: m = A ++ ('.' :: u ++ '.' :: m) :=
      List.append_assoc A ('.' :: u) ('.' :: m)
    rw [hassoc, dropSuffix_append A ('.' :: u ++ '.' :: m)]
  · unfold parsedHashExt
    rw [if_neg hcondne]
    exact hcond

/-- The naming rule when the plain path has no extension. -/
theorem hashedName0_no_ext (p d : Str) (hE : Ext p = []) :
    hashedName0 p d = p ++ '.' :: d := by
  unfold hashedName0
  rw [hE]
  simp [dropSuffix_zero]

/-- The naming rule when the plain path has the extension `'.' :: m`. -/
theorem hashedName0_ext (p d m : Str) (hE : Ext p = '.' :: m) :
    hashedName0 p d = (dropSuffix p (Ext p).length ++ '.' :: d) ++ '.' :: m := by
  unfold hashedName0
  rw [hE]
  simp [List.append_assoc]

/-- Round trip: `Open`'s parse (lines 83-95) recovers the plain path and
the digest slot from any hashed name built by the naming rule, provided the
embedded token is nonempty and free of dots and separators. -/
theorem parse_hashedName0 (p d : Str) (hv : ValidTok d) :
    Ext (hashedName0 p d) ≠ [] ∧ parsedBase (hashedName0 p d) = p ∧
    parsedHashExt (hashedName0 p d) = '.' :: d := by
  obtain ⟨_, hd⟩ := hv
  rcases ext_shape p with hE | ⟨m, hE, hm⟩
  · have hshape := hashedName0_no_ext p d hE
    obtain ⟨h1, h2, h3⟩ := parse_one_suffix p d hd hE
    rw [hshape]
    exact ⟨by rw [h1]; simp, h2, h3⟩
  · have hshape := hashedName0_ext p d m hE
    obtain ⟨h1, h2, h3⟩ := parse_two_suffix (dropSuffix p (Ext p).length) d m hd hm
    rw [hshape]
    refine ⟨by rw [h1]; simp, ?_, h3⟩
    rw [h2, ← hE]
    exact ext_suffix p

/-- Rebuild: on any request with an extension, the name equals the naming
rule applied to the parsed candidate plain path and digest slot. -/
theorem rebuild_hashedName0 (n : Str) (hne : Ext n ≠ []) :
    n = hashedName0 (parsedBase n) (parsedDigest n) := by
  rcases ext_shape n with h | ⟨m, hE, hm⟩
  · exact absurd h hne
  have hsplit := ext_suffix n
  rcases ext_shape (dropSuffix n (Ext n).length) with hx0 | ⟨u, hU, hu⟩
  · -- one dot-suffix: the sole suffix is itself the digest slot
    have hn : dropSuffix n (Ext n).length ++ '.' :: m = n := by
      rw [← hE]; exact hsplit
    obtain ⟨h1, h2, h3⟩ := parse_one_suffix (dropSuffix n (Ext n).length) m hm hx0
    rw [hn] at h1 h2 h3
    have hdg : parsedDigest n = m := by unfold parsedDigest; rw [h3]; rfl
    rw [h2, hdg, hashedName0_no_ext _ m hx0, hn]
  · -- two or more dot-suffixes
    have hsplit2 := ext_suffix (dropSuffix n (Ext n).length)
    have hM : dropSuffix (dropSuffix n (Ext n).length)
        (Ext (dropSuffix n (Ext n).length)).length ++ '.' :: u
        = dropSuffix n (Ext n).length := by
      rw [← hU]; exact hsplit2
    have hn : (dropSuffix (dropSuffix n (Ext n).length)
        (Ext (dropSuffix n (Ext n).length)).length ++ '.' :: u) ++ '.' :: m = n := by
      rw [hM, ← hE]; exact hsplit
    obtain ⟨h1, h2, h3⟩ := parse_two_suffix (dropSuffix (dropSuffix n (Ext n).length)
      (Ext (dropSuffix n (Ext n).length)).length) u m hu hm
    rw [hn] at h1 h2 h3
    have hdg : parsedDigest n = u := by unfold parsedDigest; rw [h3]; rfl
    have hEb : Ext (parsedBase n) = '.' :: m := by
      rw [h2]
      exact ext_append _ m hm
    rw [hdg, hashedName0_ext _ u m hEb, hEb]
    rw [h2]
    have hA := dropSuffix_append (dropSuffix (dropSuffix n (Ext n).length)
      (Ext (dropSuffix n (Ext n).length)).length) ('.' :: m)
    rw [hA]
    exact hn.symm

/-- The hex alphabet avoids the dot and the separator and is lowercase hex. -/
theorem hexDigit_ok : ∀ n : Fin 16,
    hexDigit n.val ≠ '.' ∧ hexDigit n.val ≠ '/' ∧ isHexC (hexDigit n.val) := by
  decide

/-- Length of the hex encoding. -/
theorem hexEncode_length (b : Bytes) : (hexEncode b).length = 2 * b.length := by
  induction b with
  | nil => rfl
  | cons x xs ih =>
    show (hexDigit (x.val / 16) :: hexDigit (x.val % 16) :: hexEncode xs).length = _
    simp [ih]
    ring

/-- Every character of a hex encoding is a hex digit of a nibble. -/
theorem hexEncode_mem (b : Bytes) (c : Char) (hc : c ∈ hexEncode b) :
    ∃ n : Fin 16, c = hexDigit n.val := by
  induction b with
  | nil => cases hc
  | cons x xs ih =>
    have hx : c = hexDigit (x.val / 16) ∨ c = hexDigit (x.val % 16) ∨ c ∈ hexEncode xs := by
      have : c ∈ hexDigit (x.val / 16) :: hexDigit (x.val % 16) :: hexEncode xs := hc
      simpa using this
    rcases hx with rfl | rfl | hx
    · exact ⟨⟨x.val / 16, Nat.div_lt_of_lt_mul (by have := x.isLt; omega)⟩, rfl⟩
    · exact ⟨⟨x.val % 16, Nat.mod_lt _ (by omega)⟩, rfl⟩
    · exact ih hx

/-- A 64-character hex string is a valid embeddable token. -/
theorem IsHex64.validTok {d : Str} (h : IsHex64 d) : ValidTok d := by
  obtain ⟨hlen, hmem⟩ := h
  refine ⟨?_, ?_⟩
  · intro hnil
    rw [hnil] at hlen
    cases hlen
  · intro c hc
    have := hmem c hc
    constructor <;> rintro rfl <;> revert this <;> decide

/-- The hex encoding of a 32-byte digest is a well-formed token. -/
theorem makeHash_hex (env : Env) (p : Str) (b : Bytes) (h : env.store p = some b) :
    makeHash env p = hexEncode (env.sha b) ∧ IsHex64 (makeHash env p) := by
  have h1 : makeHash env p = hexEncode (env.sha b) := by
    unfold makeHash
    rw [h]
  refine ⟨h1, ?_, ?_⟩
  · rw [h1, hexEncode_length, env.sha_len]
  · intro c hc
    rw [h1] at hc
    obtain ⟨n, rfl⟩ := hexEncode_mem _ c hc
    exact (hexDigit_ok n).2.2

/-- `makeHash` is empty exactly on unreadable paths. -/
theorem makeHash_cases (env : Env) (p : Str) :
    (env.store p = none ∧ makeHash env p = []) ∨
    ∃ b, env.store p = some b ∧ makeHash env p = hexEncode (env.sha b)
      ∧ IsHex64 (makeHash env p) := by
  cases h : env.store p with
  | none => exact Or.inl ⟨rfl, by unfold makeHash; rw [h]⟩
  | some b => exact Or.inr ⟨b, rfl, (makeHash_hex env p b h).1, (makeHash_hex env p b h).2⟩

/-- A nonempty `makeHash` comes from a successful read. -/
theorem makeHash_ne (env : Env) (p : Str) (h : makeHash env p ≠ []) :
    ∃ b, env.store p = some b ∧ makeHash env p = hexEncode (env.sha b)
      ∧ IsHex64 (makeHash env p) := by
  rcases makeHash_cases env p with ⟨_, h2⟩ | hb
  · exact absurd h2 h
  · exact hb

/-- The naming rule is injective on pairs of valid tokens. -/
theorem hashedName0_inj (p q d e : Str) (hd : ValidTok d) (he : ValidTok e)
    (h : hashedName0 p d = hashedName0 q e) : p = q ∧ d = e := by
  obtain ⟨_, h2, h3⟩ := parse_hashedName0 p d hd
  obtain ⟨_, h2', h3'⟩ := parse_hashedName0 q e he
  rw [h] at h2 h3
  refine ⟨h2.symm.trans h2', ?_⟩
  have := h3.symm.trans h3'
  exact ((List.cons.injEq _ _ _ _).mp this).2

/-- The naming rule is injective in the token for a fixed plain path. -/
theorem hashedName0_cancel (p d e : Str) (h : hashedName0 p d = hashedName0 p e) :
    d = e := by
  unfold hashedName0 at h
  rw [List.append_assoc _ d, List.append_assoc _ e] at h
  have h2 := List.append_cancel_left h
  exact List.append_cancel_right h2

/-- The hex encoding of any digest value is a well-formed 64-hex token. -/
theorem hexEncode_sha_hex (env : Env) (b : Bytes) : IsHex64 (hexEncode (env.sha b)) := by
  constructor
  · rw [hexEncode_length, env.sha_len]
  · intro c hc
    obtain ⟨n, rfl⟩ := hexEncode_mem _ c hc
    exact (hexDigit_ok n).2.2

/-- Cached digests are well-formed tokens in any state satisfying the
invariant. -/
theorem inv_tok (env : Env) (f : State) (q d : Str) (I : Inv env f)
    (h : f.hash q = some d) : IsHex64 d ∧ ValidTok d := by
  obtain ⟨b, _, rfl⟩ := I.inv1 q d h
  exact ⟨hexEncode_sha_hex env b, (hexEncode_sha_hex env b).validTok⟩

/-- Branch lemma: `Hash` on a cache hit. -/
theorem Hash_hit (env : Env) (f : State) (n h : Str) (hh : getHash f n = some h) :
    Hash env f n = ⟨h, f, []⟩ := by
  unfold Hash
  rw [hh]

/-- Branch lemma: `Hash` on a cache miss with a failing read. -/
theorem Hash_miss_fail (env : Env) (f : State) (n : Str) (hh : getHash f n = none)
    (hm : makeHash env n = []) : Hash env f n = ⟨[], f, [n]⟩ := by
  unfold Hash
  rw [hh, if_pos hm]

/-- Branch lemma: `Hash` on a cache miss with a successful read. -/
theorem Hash_miss_good (env : Env) (f : State) (n : Str) (hh : getHash f n = none)
    (hm : makeHash env n ≠ []) :
    Hash env f n = ⟨makeHash env n,
      ⟨mapInsert f.hash n (makeHash env n),
       mapInsert f.base (hashedName0 n (makeHash env n)) n⟩, [n]⟩ := by
  unfold Hash
  rw [hh, if_neg hm]

/-- `Name` shares its resulting cache state and reads with its `Hash` call. -/
theorem Name_st (env : Env) (f : State) (n : Str) :
    (Name env f n).st = (Hash env f n).st ∧ (Name env f n).reads = (Hash env f n).reads := by
  unfold Name
  split <;> exact ⟨rfl, rfl⟩

/-- Branch lemma: `Open` on a reverse-cache hit. -/
theorem Open_fast (env : Env) (f : State) (n base : Str)
    (hb : getBase f n = some base) : Open env f n = ⟨fsOpen env base, f, []⟩ := by
  unfold Open
  rw [hb]

/-- Branch lemma: `Open` without any extension. -/
theorem Open_noext (env : Env) (f : State) (n : Str) (hb : getBase f n = none)
    (he : Ext n = []) : Open env f n = ⟨Except.error ⟨opOpen, n⟩, f, []⟩ := by
  unfold Open
  rw [hb, if_pos he]

/-- Branch lemma: `Open` with a failed validation. -/
theorem Open_badhash (env : Env) (f : State) (n : Str) (hb : getBase f n = none)
    (he : Ext n ≠ [])
    (hc : makeHash env (parsedBase n) = [] ∨ parsedDigest n ≠ makeHash env (parsedBase n)) :
    Open env f n = ⟨Except.error ⟨opOpen, n⟩, f, [parsedBase n]⟩ := by
  unfold Open
  rw [hb, if_neg he, if_pos hc]

/-- Branch lemma: `Open` with a successful validation. -/
theorem Open_good (env : Env) (f : State) (n : Str) (hb : getBase f n = none)
    (he : Ext n ≠ [])
    (hc : ¬(makeHash env (parsedBase n) = [] ∨ parsedDigest n ≠ makeHash env (parsedBase n))) :
    Open env f n = ⟨fsOpen env (parsedBase n),
      ⟨mapInsert f.hash (parsedBase n) (makeHash env (parsedBase n)),
       mapInsert f.base n (parsedBase n)⟩, [parsedBase n]⟩ := by
  unfold Open
  rw [hb, if_neg he, if_neg hc]

/-- The dual-map critical section: inserting a fresh digest under both
indexes preserves the invariant and never changes an existing entry. -/
theorem inv_insert (env : Env) (f : State) (p t k : Str) (I : Inv env f)
    (b : Bytes) (hstore : env.store p = some b) (ht : t = hexEncode (env.sha b))
    (hk : k = hashedName0 p t)
    (hmiss : f.hash p = none ∨ f.hash p = some t) :
    Inv env ⟨mapInsert f.hash p t, mapInsert f.base k p⟩ ∧
    (∀ q d, f.hash q = some d → mapInsert f.hash p t q = some d) ∧
    (∀ k' v, f.base k' = some v → mapInsert f.base k p k' = some v) := by
  subst hk
  have hhex : IsHex64 t := by rw [ht]; exact hexEncode_sha_hex env b
  have hvt : ValidTok t := hhex.validTok
  have pres1 : ∀ q d, f.hash q = some d → mapInsert f.hash p t q = some d := by
    intro q d hq
    show (if q = p then some t else f.hash q) = some d
    by_cases hqp : q = p
    · subst hqp
      rcases hmiss with hmiss | hmiss
      · rw [hmiss] at hq
        cases hq
      · rw [hmiss] at hq
        rw [if_pos rfl]
        exact hq
    · rw [if_neg hqp]
      exact hq
  have pres2 : ∀ k' v, f.base k' = some v → mapInsert f.base (hashedName0 p t) p k' = some v := by
    intro k' v hk'
    show (if k' = hashedName0 p t then some p else f.base k') = some v
    by_cases hkk : k' = hashedName0 p t
    · obtain ⟨d0, hd0, hkey⟩ := I.inv3 k' v hk'
      rw [hkk] at hkey
      obtain ⟨hvp, _⟩ := hashedName0_inj v p d0 t (inv_tok env f v d0 I hd0).2 hvt hkey.symm
      rw [if_pos hkk, hvp]
    · rw [if_neg hkk]
      exact hk'
  refine ⟨⟨?_, ?_, ?_⟩, pres1, pres2⟩
  · intro q d hq
    replace hq : (if q = p then some t else f.hash q) = some d := hq
    by_cases hqp : q = p
    · subst hqp
      rw [if_pos rfl] at hq
      refine ⟨b, hstore, ?_⟩
      rw [← Option.some_inj.mp hq, ht]
    · rw [if_neg hqp] at hq
      exact I.inv1 q d hq
  · intro q d hq
    replace hq : (if q = p then some t else f.hash q) = some d := hq
    show (if hashedName0 q d = hashedName0 p t then some p else f.base (hashedName0 q d)) = some q
    by_cases hqp : q = p
    · subst hqp
      rw [if_pos rfl] at hq
      have hdt : d = t := (Option.some_inj.mp hq).symm
      subst hdt
      rw [if_pos rfl]
    · rw [if_neg hqp] at hq
      have hold := I.inv2 q d hq
      by_cases hkk : hashedName0 q d = hashedName0 p t
      · obtain ⟨hqp', _⟩ :=
          hashedName0_inj q p d t (inv_tok env f q d I hq).2 hvt hkk
        exact absurd hqp' hqp
      · rw [if_neg hkk]
        exact hold
  · intro k' q hk'
    replace hk' : (if k' = hashedName0 p t then some p else f.base k') = some q := hk'
    by_cases hkk : k' = hashedName0 p t
    · rw [if_pos hkk] at hk'
      have hqp : q = p := (Option.some_inj.mp hk').symm
      subst hqp
      refine ⟨t, ?_, hkk⟩
      show (if q = q then some t else f.hash q) = some t
      rw [if_pos rfl]
    · rw [if_neg hkk] at hk'
      obtain ⟨d0, hd0, hkey⟩ := I.inv3 k' q hk'
      exact ⟨d0, pres1 q d0 hd0, hkey⟩

/-- A single `Hash` call preserves the invariant and existing entries. -/
theorem hash_step_ok (env : Env) (f : State) (n : Str) (I : Inv env f) :
    Inv env (Hash env f n).st ∧
    (∀ q d, f.hash q = some d → (Hash env f n).st.hash q = some d) ∧
    (∀ k v, f.base k = some v → (Hash env f n).st.base k = some v) := by
  cases hg : getHash f n with
  | some h =>
    rw [Hash_hit env f n h hg]
    exact ⟨I, fun _ _ hq => hq, fun _ _ hk => hk⟩
  | none =>
    by_cases hm : makeHash env n = []
    · rw [Hash_miss_fail env f n hg hm]
      exact ⟨I, fun _ _ hq => hq, fun _ _ hk => hk⟩
    · rw [Hash_miss_good env f n hg hm]
      obtain ⟨b, hstore, heq, _⟩ := makeHash_ne env n hm
      exact inv_insert env f n (makeHash env n) (hashedName0 n (makeHash env n)) I b
        hstore heq rfl (Or.inl hg)

/-- A single `Open` call preserves the invariant and existing entries. -/
theorem open_step_ok (env : Env) (f : State) (n : Str) (I : Inv env f) :
    Inv env (Open env f n).st ∧
    (∀ q d, f.hash q = some d → (Open env f n).st.hash q = some d) ∧
    (∀ k v, f.base k = some v → (Open env f n).st.base k = some v) := by
  cases hb : getBase f n with
  | some base =>
    rw [Open_fast env f n base hb]
    exact ⟨I, fun _ _ hq => hq, fun _ _ hk => hk⟩
  | none =>
    by_cases he : Ext n = []
    · rw [Open_noext env f n hb he]
      exact ⟨I, fun _ _ hq => hq, fun _ _ hk => hk⟩
    by_cases hc : makeHash env (parsedBase n) = [] ∨ parsedDigest n ≠ makeHash env (parsedBase n)
    · rw [Open_badhash env f n hb he hc]
      exact ⟨I, fun _ _ hq => hq, fun _ _ hk => hk⟩
    · rw [Open_good env f n hb he hc]
      push_neg at hc
      obtain ⟨hne, hdig⟩ := hc
      obtain ⟨b, hstore, heq, _⟩ := makeHash_ne env (parsedBase n) hne
      have hn := rebuild_hashedName0 n he
      rw [hdig] at hn
      have hmiss : f.hash (parsedBase n) = none ∨
          f.hash (parsedBase n) = some (makeHash env (parsedBase n)) := by
        cases hh : f.hash (parsedBase n) with
        | none => exact Or.inl rfl
        | some d =>
          obtain ⟨b', hstore', hdval⟩ := I.inv1 (parsedBase n) d hh
          rw [hstore] at hstore'
          refine Or.inr ?_
          rw [hdval, ← Option.some_inj.mp hstore', ← heq]
      exact inv_insert env f (parsedBase n) (makeHash env (parsedBase n)) n I b
        hstore heq hn hmiss

/-- Every single call preserves the invariant and existing entries. -/
theorem step_ok (env : Env) (f : State) (o : Op) (I : Inv env f) :
    Inv env (step env f o) ∧
    (∀ q d, f.hash q = some d → (step env f o).hash q = some d) ∧
    (∀ k v, f.base k = some v → (step env f o).base k = some v) := by
  cases o with
  | hashOp n => exact hash_step_ok env f n I
  | nameOp n =>
    have hst : step env f (Op.nameOp n) = (Hash env f n).st := (Name_st env f n).1
    rw [hst]
    exact hash_step_ok env f n I
  | openOp n => exact open_step_ok env f n I

/-- Every call sequence preserves the invariant and existing entries. -/
theorem run_ok (env : Env) : ∀ (ops : List Op) (f : State), Inv env f →
    Inv env (run env f ops) ∧
    (∀ q d, f.hash q = some d → (run env f ops).hash q = some d) ∧
    (∀ k v, f.base k = some v → (run env f ops).base k = some v)
  | [], f, I => ⟨I, fun _ _ hq => hq, fun _ _ hk => hk⟩
  | o :: os, f, I => by
    obtain ⟨I1, p1, p2⟩ := step_ok env f o I
    obtain ⟨I2, q1, q2⟩ := run_ok env os (step env f o) I1
    exact ⟨I2, fun q d hq => q1 q d (p1 q d hq), fun k v hk => q2 k v (p2 k v hk)⟩

/-- The empty caches satisfy the invariant. -/
theorem inv_init (env : Env) : Inv env State.init :=
  ⟨(fun _ _ h => nomatch h), (fun _ _ h => nomatch h), (fun _ _ h => nomatch h)⟩

/-- States reachable from `New` satisfy the invariant. -/
theorem inv_reachable (env : Env) (ops : List Op) :
    Inv env (run env State.init ops) :=
  (run_ok env ops State.init (inv_init env)).1

/-- Under the invariant, a reverse-cache hit is a well-formed hashed name:
it has an extension, it parses back to the cached plain path, and its
digest slot matches the fresh digest of that path. -/
theorem base_hit (env : Env) (f : State) (name p : Str) (I : Inv env f)
    (hb : getBase f name = some p) :
    Ext name ≠ [] ∧ parsedBase name = p ∧ parsedDigest name = makeHash env p ∧
    makeHash env p ≠ [] ∧ ∃ b, env.store p = some b := by
  obtain ⟨d, hd, hkey⟩ := I.inv3 name p hb
  obtain ⟨b, hstore, hdval⟩ := I.inv1 p d hd
  have hvt : ValidTok d := (inv_tok env f p d I hd).2
  obtain ⟨hne, hbase, hhx⟩ := parse_hashedName0 p d hvt
  rw [← hkey] at hne hbase hhx
  have hmk : makeHash env p = d := by
    rw [(makeHash_hex env p b hstore).1, ← hdval]
  refine ⟨hne, hbase, ?_, ?_, ⟨b, hstore⟩⟩
  · unfold parsedDigest
    rw [hhx, hmk]
    rfl
  · rw [hmk]
    exact hvt.1

/-- A hashed name is never the empty string. -/
theorem hashedName0_ne_nil (p d : Str) : hashedName0 p d ≠ [] := by
  unfold hashedName0
  simp

/-- Branch lemma: `Name` when the digest came back nonempty. -/
theorem Name_of_hash_ne (env : Env) (f : State) (n : Str)
    (h : (Hash env f n).val ≠ []) :
    Name env f n = ⟨hashedName0 n (Hash env f n).val, (Hash env f n).st,
      (Hash env f n).reads⟩ := by
  unfold Name
  rw [if_neg h]

/-- Branch lemma: `Name` when the digest came back empty. -/
theorem Name_of_hash_nil (env : Env) (f : State) (n : Str)
    (h : (Hash env f n).val = []) :
    Name env f n = ⟨[], (Hash env f n).st, (Hash env f n).reads⟩ := by
  unfold Name
  rw [if_pos h]

/-- C2: at every reachable state, the two caches are mutually consistent:
the digest cache maps `p` to `d` exactly when the reverse cache maps the
hashed name built from `p` and `d` back to `p`. -/
theorem C2_theorem (env : Env) (ops : List Op) (p d : Str) :
    (run env State.init ops).hash p = some d ↔
    (run env State.init ops).base (hashedName0 p d) = some p := by
  have I := inv_reachable env ops
  constructor
  · intro h
    exact I.inv2 p d h
  · intro h
    obtain ⟨d0, hd0, hkey⟩ := I.inv3 (hashedName0 p d) p h
    rw [hashedName0_cancel p d d0 hkey]
    exact hd0

/-- C4: `Name` returns the stem of `p` followed by a dot, the digest and
the last dot-delimited extension of `p` (just `p`, dot, digest when `p` has
no extension), and returns empty exactly when `Hash` returns empty. -/
theorem C4_theorem (env : Env) (f : State) (p : Str) :
    ((Name env f p).val = [] ↔ (Hash env f p).val = []) ∧
    ((Hash env f p).val ≠ [] →
      (Name env f p).val =
        dropSuffix p (Ext p).length ++ ['.'] ++ (Hash env f p).val ++ Ext p ∧
      (Ext p = [] → (Name env f p).val = p ++ '.' :: (Hash env f p).val)) := by
  constructor
  · constructor
    · intro h
      by_contra h0
      rw [Name_of_hash_ne env f p h0] at h
      exact hashedName0_ne_nil p _ h
    · intro h
      rw [Name_of_hash_nil env f p h]
  · intro h0
    have hval : (Name env f p).val = hashedName0 p (Hash env f p).val := by
      rw [Name_of_hash_ne env f p h0]
    refine ⟨hval, ?_⟩
    intro hE
    rw [hval, hashedName0_no_ext p _ hE]

/-- C4 witness: concrete instance at the one-file environment. -/
theorem C4_witness :
    (Hash env0 State.init aPath).val ≠ [] ∧
    ((Name env0 State.init aPath).val =
      dropSuffix aPath (Ext aPath).length ++ ['.'] ++ (Hash env0 State.init aPath).val
        ++ Ext aPath ∧
    (Ext aPath = [] →
      (Name env0 State.init aPath).val = aPath ++ '.' :: (Hash env0 State.init aPath).val)) :=
  ⟨by decide, (C4_theorem env0 State.init aPath).2 (by decide)⟩

/-- C9: failures are atomic.  When `Hash` or `Name` return the empty token,
and when `Open` returns an error, the caches are exactly as before the
call. -/
theorem C9_theorem (env : Env) (f : State) (name : Str) :
    ((Hash env f name).val = [] → (Hash env f name).st = f) ∧
    ((Name env f name).val = [] → (Name env f name).st = f) ∧
    (∀ e, (Open env f name).res = Except.error e → (Open env f name).st = f) := by
  have hHash : (Hash env f name).val = [] → (Hash env f name).st = f := by
    intro hv
    cases hg : getHash f name with
    | some h => rw [Hash_hit env f name h hg]
    | none =>
      by_cases hm : makeHash env name = []
      · rw [Hash_miss_fail env f name hg hm]
      · have : (Hash env f name).val = makeHash env name := by
          rw [Hash_miss_good env f name hg hm]
        rw [this] at hv
        exact absurd hv hm
  refine ⟨hHash, ?_, ?_⟩
  · intro hv
    by_cases h0 : (Hash env f name).val = []
    · rw [(Name_st env f name).1]
      exact hHash h0
    · rw [Name_of_hash_ne env f name h0] at hv
      exact absurd hv (hashedName0_ne_nil name _)
  · intro e he
    cases hb : getBase f name with
    | some base => rw [Open_fast env f name base hb]
    | none =>
      by_cases hx : Ext name = []
      · rw [Open_noext env f name hb hx]
      by_cases hc : makeHash env (parsedBase name) = [] ∨
          parsedDigest name ≠ makeHash env (parsedBase name)
      · rw [Open_badhash env f name hb hx hc]
      · rw [Open_good env f name hb hx hc] at he
        push_neg at hc
        obtain ⟨b, hstore, _, _⟩ := makeHash_ne env (parsedBase name) hc.1
        have : fsOpen env (parsedBase name) = Except.ok (parsedBase name, b) := by
          unfold fsOpen
          rw [hstore]
        replace he : fsOpen env (parsedBase name) = Except.error e := he
        rw [this] at he
        cases he

/-- C9 witness: a failing `Hash` call leaves the caches untouched. -/
theorem C9_witness :
    (Hash envN State.init aPath).val = [] ∧ (Hash envN State.init aPath).st = State.init :=
  ⟨by decide, (C9_theorem envN State.init aPath).1 (by decide)⟩

/-- C1 counterexample: after `Hash "a"` the digest of `"a"` is cached, the
request `"a.888…8"` misses the reverse cache and parses to the candidate
plain path `"a"`, yet `Open`'s validation still performs a backing-store
read of `"a"` instead of using the cached digest. -/
theorem C1_counterexample :
    getBase s0 name0 = none ∧ getHash s0 aPath = some d0 ∧
    parsedBase name0 = aPath ∧ (Open env0 s0 name0).reads = [aPath] := by
  refine ⟨?_, ?_, ?_, ?_⟩ <;> decide

/-- C1 (amended): on a reverse-cache miss with an extension present,
`Open`'s validation always reads the candidate plain path from the backing
store (it calls `makeHash` directly, bypassing the digest cache), and the
value it computes equals what `Hash` of the candidate plain path would
return at that point. -/
theorem C1_theorem (env : Env) (ops : List Op) (name : Str)
    (h1 : getBase (run env State.init ops) name = none) (h2 : Ext name ≠ []) :
    (Open env (run env State.init ops) name).reads = [parsedBase name] ∧
    makeHash env (parsedBase name) =
      (Hash env (run env State.init ops) (parsedBase name)).val := by
  have I := inv_reachable env ops
  constructor
  · by_cases hc : makeHash env (parsedBase name) = [] ∨
        parsedDigest name ≠ makeHash env (parsedBase name)
    · rw [Open_badhash env _ name h1 h2 hc]
    · rw [Open_good env _ name h1 h2 hc]
  · cases hg : getHash (run env State.init ops) (parsedBase name) with
    | some d =>
      rw [Hash_hit env _ _ d hg]
      obtain ⟨b, hstore, hdval⟩ := I.inv1 (parsedBase name) d hg
      show makeHash env (parsedBase name) = d
      rw [(makeHash_hex env _ b hstore).1, hdval]
    | none =>
      by_cases hm : makeHash env (parsedBase name) = []
      · rw [Hash_miss_fail env _ _ hg hm]
        exact hm
      · rw [Hash_miss_good env _ _ hg hm]

/-- C1 witness: concrete instance of the amended claim. -/
theorem C1_witness :
    getBase (run env0 State.init []) nameAB = none ∧ Ext nameAB ≠ [] ∧
    ((Open env0 (run env0 State.init []) nameAB).reads = [parsedBase nameAB] ∧
     makeHash env0 (parsedBase nameAB) =
       (Hash env0 (run env0 State.init []) (parsedBase nameAB)).val) :=
  ⟨rfl, by decide, C1_theorem env0 [] nameAB rfl (by decide)⟩

/-- C3 counterexample: after `Hash "a"` the digest of `"a"` is cached, yet
`Open "a.999…9"` recomputes that digest (it reads `"a"` from the backing
store again), contradicting "the digest is never recomputed for a cached
path". -/
theorem C3_counterexample :
    getHash s0 aPath = some d0 ∧ (Open env0 s0 name9).reads = [aPath] := by
  constructor <;> decide

/-- C3 (amended): cache entries are never removed and their values never
change under any later call sequence (the caches only grow), and `Hash`
itself never recomputes a cached digest (a cache hit performs no
backing-store read); `Open`'s validation, however, may re-read a cached
path. -/
theorem C3_theorem (env : Env) (ops1 ops2 : List Op) (p d k v : Str) :
    ((run env State.init ops1).hash p = some d →
      (run env (run env State.init ops1) ops2).hash p = some d) ∧
    ((run env State.init ops1).base k = some v →
      (run env (run env State.init ops1) ops2).base k = some v) ∧
    ((run env State.init ops1).hash p = some d →
      (Hash env (run env State.init ops1) p).reads = []) := by
  have I := inv_reachable env ops1
  obtain ⟨_, p1, p2⟩ := run_ok env ops2 (run env State.init ops1) I
  refine ⟨p1 p d, p2 k v, ?_⟩
  intro h
  rw [Hash_hit env _ p d h]

/-- C3 witness: a cached entry survives a later `Open` call and its `Hash`
is served without a read. -/
theorem C3_witness :
    (run env0 (run env0 State.init [Op.hashOp aPath]) [Op.openOp name9]).hash aPath
      = some d0 ∧
    (Hash env0 (run env0 State.init [Op.hashOp aPath]) aPath).reads = [] :=
  ⟨(C3_theorem env0 [Op.hashOp aPath] [Op.openOp name9] aPath d0 [] []).1 (by decide),
   (C3_theorem env0 [Op.hashOp aPath] [Op.openOp name9] aPath d0 [] []).2.2 (by decide)⟩

/-- C5: for every path readable in the backing store, opening its hashed
name succeeds and serves exactly the store's bytes at that path. -/
theorem C5_theorem (env : Env) (ops : List Op) (p : Str) (b : Bytes)
    (h : env.store p = some b) :
    (Open env (Name env (run env State.init ops) p).st
      (Name env (run env State.init ops) p).val).res = Except.ok (p, b) := by
  have I := inv_reachable env ops
  have hmk := (makeHash_hex env p b h).1
  cases hg : getHash (run env State.init ops) p with
  | some d =>
    have hH := Hash_hit env (run env State.init ops) p d hg
    have hval : (Hash env (run env State.init ops) p).val = d := by rw [hH]
    have hdne : (Hash env (run env State.init ops) p).val ≠ [] := by
      rw [hval]
      exact (inv_tok env _ p d I hg).2.1
    have hN := Name_of_hash_ne env (run env State.init ops) p hdne
    have hst : (Name env (run env State.init ops) p).st = run env State.init ops := by
      rw [hN, hH]
    have hv2 : (Name env (run env State.init ops) p).val = hashedName0 p d := by
      rw [hN, hval]
    rw [hst, hv2]
    have hbase : getBase (run env State.init ops) (hashedName0 p d) = some p :=
      I.inv2 p d hg
    rw [Open_fast env _ (hashedName0 p d) p hbase]
    show fsOpen env p = Except.ok (p, b)
    unfold fsOpen
    rw [h]
  | none =>
    have hmne : makeHash env p ≠ [] := by
      rw [hmk]
      exact (hexEncode_sha_hex env b).validTok.1
    have hH := Hash_miss_good env (run env State.init ops) p hg hmne
    have hval : (Hash env (run env State.init ops) p).val = makeHash env p := by rw [hH]
    have hdne : (Hash env (run env State.init ops) p).val ≠ [] := by
      rw [hval]
      exact hmne
    have hN := Name_of_hash_ne env (run env State.init ops) p hdne
    have hst2 : (Hash env (run env State.init ops) p).st =
        ⟨mapInsert (run env State.init ops).hash p (makeHash env p),
         mapInsert (run env State.init ops).base (hashedName0 p (makeHash env p)) p⟩ := by
      rw [hH]
    have hst : (Name env (run env State.init ops) p).st =
        ⟨mapInsert (run env State.init ops).hash p (makeHash env p),
         mapInsert (run env State.init ops).base (hashedName0 p (makeHash env p)) p⟩ := by
      rw [hN, hst2]
    have hv2 : (Name env (run env State.init ops) p).val =
        hashedName0 p (makeHash env p) := by
      rw [hN, hval]
    rw [hst, hv2]
    have hbase : getBase
        (⟨mapInsert (run env State.init ops).hash p (makeHash env p),
          mapInsert (run env State.init ops).base (hashedName0 p (makeHash env p)) p⟩ : State)
        (hashedName0 p (makeHash env p)) = some p := by
      show (if hashedName0 p (makeHash env p) = hashedName0 p (makeHash env p)
        then some p else (run env State.init ops).base (hashedName0 p (makeHash env p)))
        = some p
      rw [if_pos rfl]
    rw [Open_fast env _ (hashedName0 p (makeHash env p)) p hbase]
    show fsOpen env p = Except.ok (p, b)
    unfold fsOpen
    rw [h]

/-- C5 witness: concrete round trip through `Name` and `Open`. -/
theorem C5_witness :
    env0.store aPath = some [] ∧
    (Open env0 (Name env0 (run env0 State.init []) aPath).st
      (Name env0 (run env0 State.init []) aPath).val).res = Except.ok (aPath, []) :=
  ⟨by decide, C5_theorem env0 [] aPath [] (by decide)⟩

/-- C6: at every reachable state, `Open` fails with exactly one error kind,
a not-exist path error carrying the operation "open" and the originally
requested path, and it fails precisely when the request has no dot-suffix,
or the freshly computed digest of the implied plain path is empty (missing
or unreadable file), or the digest-slot text differs from that fresh
digest. -/
theorem C6_theorem (env : Env) (ops : List Op) (name : Str) :
    (∀ e, (Open env (run env State.init ops) name).res = Except.error e →
      e = ⟨opOpen, name⟩) ∧
    ((∃ e, (Open env (run env State.init ops) name).res = Except.error e) ↔
      (Ext name = [] ∨ makeHash env (parsedBase name) = [] ∨
        parsedDigest name ≠ makeHash env (parsedBase name))) := by
  have I := inv_reachable env ops
  cases hb : getBase (run env State.init ops) name with
  | some p =>
    obtain ⟨hne, hbase, hdig, hmk, ⟨b, hstore⟩⟩ := base_hit env _ name p I hb
    have hres : (Open env (run env State.init ops) name).res = Except.ok (p, b) := by
      rw [Open_fast env _ name p hb]
      show fsOpen env p = Except.ok (p, b)
      unfold fsOpen
      rw [hstore]
    constructor
    · intro e he
      rw [hres] at he
      cases he
    · constructor
      · rintro ⟨e, he⟩
        rw [hres] at he
        cases he
      · intro hcond
        rcases hcond with h | h | h
        · exact absurd h hne
        · rw [hbase] at h
          exact absurd h hmk
        · rw [hbase] at h
          exact absurd hdig h
  | none =>
    by_cases he : Ext name = []
    · have hres : (Open env (run env State.init ops) name).res =
          Except.error ⟨opOpen, name⟩ := by
        rw [Open_noext env _ name hb he]
      constructor
      · intro e h2
        rw [hres] at h2
        injection h2 with h3
        exact h3.symm
      · exact ⟨fun _ => Or.inl he, fun _ => ⟨⟨opOpen, name⟩, hres⟩⟩
    · by_cases hc : makeHash env (parsedBase name) = [] ∨
          parsedDigest name ≠ makeHash env (parsedBase name)
      · have hres : (Open env (run env State.init ops) name).res =
            Except.error ⟨opOpen, name⟩ := by
          rw [Open_badhash env _ name hb he hc]
        constructor
        · intro e h2
          rw [hres] at h2
          injection h2 with h3
          exact h3.symm
        · exact ⟨fun _ => Or.inr hc, fun _ => ⟨⟨opOpen, name⟩, hres⟩⟩
      · have hc0 := hc
        push_neg at hc
        obtain ⟨b, hstore, _, _⟩ := makeHash_ne env (parsedBase name) hc.1
        have hres : (Open env (run env State.init ops) name).res =
            Except.ok (parsedBase name, b) := by
          rw [Open_good env _ name hb he hc0]
          show fsOpen env (parsedBase name) = Except.ok (parsedBase name, b)
          unfold fsOpen
          rw [hstore]
        constructor
        · intro e h2
          rw [hres] at h2
          cases h2
        · constructor
          · rintro ⟨e, h2⟩
            rw [hres] at h2
            cases h2
          · intro hcond
            rcases hcond with h | h | h
            · exact absurd h he
            · exact absurd h hc.1
            · exact absurd hc.2 h

/-- C6 witness: a dotless request fails. -/
theorem C6_witness :
    ∃ e, (Open env0 (run env0 State.init []) aPath).res = Except.error e :=
  (C6_theorem env0 [] aPath).2.mpr (Or.inl (by decide))

/-- C7 counterexample: with an unreadable path, the first `Hash` call
returns the empty token and caches nothing, so the second call reads the
backing store again, contradicting "the second call performs no
backing-store read". -/
theorem C7_counterexample :
    (Hash envN State.init aPath).val = (Hash envN (Hash envN State.init aPath).st aPath).val ∧
    (Hash envN (Hash envN State.init aPath).st aPath).reads = [aPath] := by
  constructor <;> decide

/-- C7 (amended): two successive `Hash` calls return the identical token;
when that token is nonempty the second call is a cache hit and performs no
backing-store read (a failing first call caches nothing and the second call
reads again). -/
theorem C7_theorem (env : Env) (f : State) (name : Str) :
    (Hash env f name).val = (Hash env (Hash env f name).st name).val ∧
    ((Hash env f name).val ≠ [] →
      (Hash env (Hash env f name).st name).reads = []) := by
  cases hg : getHash f name with
  | some h =>
    have hH := Hash_hit env f name h hg
    have hst : (Hash env f name).st = f := by rw [hH]
    constructor
    · rw [hst]
    · intro _
      rw [hst, Hash_hit env f name h hg]
  | none =>
    by_cases hm : makeHash env name = []
    · have hH := Hash_miss_fail env f name hg hm
      have hst : (Hash env f name).st = f := by rw [hH]
      constructor
      · rw [hst]
      · intro hv
        have hnil : (Hash env f name).val = [] := by rw [hH]
        exact absurd hnil hv
    · have hH := Hash_miss_good env f name hg hm
      have hg2 : getHash (Hash env f name).st name = some (makeHash env name) := by
        rw [hH]
        show (if name = name then some (makeHash env name) else f.hash name)
          = some (makeHash env name)
        rw [if_pos rfl]
      have hH2 := Hash_hit env (Hash env f name).st name (makeHash env name) hg2
      constructor
      · rw [hH2, hH]
      · intro _
        rw [hH2]

/-- C7 witness: on a readable path the second call is read-free. -/
theorem C7_witness :
    (Hash env0 State.init aPath).val ≠ [] ∧
    (Hash env0 (Hash env0 State.init aPath).st aPath).reads = [] :=
  ⟨by decide, (C7_theorem env0 State.init aPath).2 (by decide)⟩

/-- C8 counterexample: `Name` returns a nonempty value that is not a
64-character string (it is the whole hashed path, not a bare token). -/
theorem C8_counterexample :
    (Name env0 State.init aPath).val ≠ [] ∧
    (Name env0 State.init aPath).val.length ≠ 64 := by
  constructor <;> decide

/-- C8 (amended): at every reachable state every digest-cache value is the
64-character lowercase-hex sha256 encoding of its file's bytes, reverse-
cache values are never the empty string, every nonempty `Hash` return is
such a token, and a nonempty `Name` return is the hashed path embedding
that token (not itself a 64-character token). -/
theorem C8_theorem (env : Env) (ops : List Op) (p : Str) :
    (∀ q d, (run env State.init ops).hash q = some d →
      IsHex64 d ∧ ∃ b, env.store q = some b ∧ d = hexEncode (env.sha b)) ∧
    (∀ k v, (run env State.init ops).base k = some v → v ≠ []) ∧
    ((Hash env (run env State.init ops) p).val ≠ [] →
      IsHex64 (Hash env (run env State.init ops) p).val) ∧
    ((Name env (run env State.init ops) p).val ≠ [] →
      (Name env (run env State.init ops) p).val =
        hashedName0 p (Hash env (run env State.init ops) p).val ∧
      IsHex64 (Hash env (run env State.init ops) p).val) := by
  have I := inv_reachable env ops
  have part1 : ∀ q d, (run env State.init ops).hash q = some d →
      IsHex64 d ∧ ∃ b, env.store q = some b ∧ d = hexEncode (env.sha b) := by
    intro q d hq
    exact ⟨(inv_tok env _ q d I hq).1, I.inv1 q d hq⟩
  have part3 : (Hash env (run env State.init ops) p).val ≠ [] →
      IsHex64 (Hash env (run env State.init ops) p).val := by
    intro hv
    cases hg : getHash (run env State.init ops) p with
    | some d =>
      have hval : (Hash env (run env State.init ops) p).val = d := by
        rw [Hash_hit env _ p d hg]
      rw [hval]
      exact (inv_tok env _ p d I hg).1
    | none =>
      by_cases hm : makeHash env p = []
      · have hnil : (Hash env (run env State.init ops) p).val = [] := by
          rw [Hash_miss_fail env _ p hg hm]
        exact absurd hnil hv
      · have hval : (Hash env (run env State.init ops) p).val = makeHash env p := by
          rw [Hash_miss_good env _ p hg hm]
        rw [hval]
        obtain ⟨b, _, _, hhex⟩ := makeHash_ne env p hm
        exact hhex
  refine ⟨part1, ?_, part3, ?_⟩
  · intro k v hk
    obtain ⟨d, hd, _⟩ := I.inv3 k v hk
    obtain ⟨b, hstore, _⟩ := I.inv1 v d hd
    intro hvnil
    rw [hvnil, env.store_empty] at hstore
    cases hstore
  · intro hv
    have h0 : (Hash env (run env State.init ops) p).val ≠ [] := by
      intro h0
      rw [Name_of_hash_nil env (run env State.init ops) p h0] at hv
      exact hv rfl
    refine ⟨?_, part3 h0⟩
    rw [Name_of_hash_ne env _ p h0]

/-- C8 witness: the concrete cached digest is a 64-hex token of the stored
bytes. -/
theorem C8_witness :
    IsHex64 d0 ∧ ∃ b, env0.store aPath = some b ∧ d0 = hexEncode (env0.sha b) :=
  (C8_theorem env0 [Op.hashOp aPath] aPath).1 aPath d0 (by decide)

/-- C10 counterexample: the request `"a.b."` has a bare trailing dot as its
final extension, yet the extracted candidate digest is `"b"`, not the empty
string (the digest slot is the second-to-last suffix). -/
theorem C10_counterexample :
    Ext nameBD = ['.'] ∧ parsedDigest nameBD = ['b'] ∧ parsedDigest nameBD ≠ [] := by
  refine ⟨?_, ?_, ?_⟩ <;> decide

/-- C10 (amended): the digest-slot slice always acts on a nonempty
extension beginning with a dot (so `hashExt[1:]` never faults), and a
request with exactly one dot-suffix that is a bare trailing dot yields the
empty candidate digest and fails with a not-exist error. -/
theorem C10_theorem (env : Env) (f : State) (name : Str) :
    (Ext name ≠ [] → ∃ t, parsedHashExt name = '.' :: t) ∧
    (getBase f name = none → Ext name = ['.'] →
      Ext (dropSuffix name 1) = [] →
      parsedDigest name = [] ∧ ∃ e, (Open env f name).res = Except.error e) := by
  constructor
  · intro hne
    unfold parsedHashExt
    by_cases hx0 : Ext (dropSuffix name (Ext name).length) = []
    · rw [if_pos hx0]
      rcases ext_shape name with h | ⟨m, hm, _⟩
      · exact absurd h hne
      · exact ⟨m, hm⟩
    · rw [if_neg hx0]
      rcases ext_shape (dropSuffix name (Ext name).length) with h | ⟨m, hm, _⟩
      · exact absurd h hx0
      · exact ⟨m, hm⟩
  · intro hb hdot hx0
    have hne : Ext name ≠ [] := by rw [hdot]; simp
    have hlen : (Ext name).length = 1 := by rw [hdot]; rfl
    have hx0' : Ext (dropSuffix name (Ext name).length) = [] := by
      rw [hlen]
      exact hx0
    have hhx : parsedHashExt name = ['.'] := by
      unfold parsedHashExt
      rw [if_pos hx0', hdot]
    have hdg : parsedDigest name = [] := by
      unfold parsedDigest
      rw [hhx]
      rfl
    refine ⟨hdg, ?_⟩
    by_cases hm : makeHash env (parsedBase name) = []
    · exact ⟨⟨opOpen, name⟩, by rw [Open_badhash env f name hb hne (Or.inl hm)]⟩
    · have hnemk : parsedDigest name ≠ makeHash env (parsedBase name) := by
        rw [hdg]
        exact fun hcontra => hm hcontra.symm
      exact ⟨⟨opOpen, name⟩, by rw [Open_badhash env f name hb hne (Or.inr hnemk)]⟩

/-- C10 witness: the request `"x."` extracts the empty candidate digest and
fails. -/
theorem C10_witness :
    parsedDigest nameDot = [] ∧ ∃ e, (Open env0 State.init nameDot).res = Except.error e :=
  (C10_theorem env0 State.init nameDot).2 rfl (by decide) (by decide)

end Hashfs
